import Mathlib

/-!
Identifier typo scan of identypo.

A shallow embedding of `identifier_typo.go` (package `identypo`).

Go strings are modelled as lists of characters.  The third-party packages the
scan calls (`misspell`, `camelcase`) and the tables of Go's `unicode` package
are not part of the repository; `processIdentifiers` is embedded over an
arbitrary implementation of them (`Deps`), and a second, spec-modelled
implementation (`specDepsOver`, over arbitrary Unicode tables) is given for the
statements that are about the corrector or the segmenter themselves.
-/

set_option autoImplicit false

namespace Identypo

/-- A Go string, as its sequence of characters. -/
abbrev Str := List Char

/-! ## Data model -/

/-- The `ast.ObjKind` of go/ast: what an identifier's resolved object denotes. -/
inductive ObjKind where
  | Bad
  | Pkg
  | Con
  | Typ
  | Var
  | Fun
  | Lbl
  deriving DecidableEq, Repr

/-- An `*ast.Ident` as the scan sees it: its `Name`, its `Obj` (`none` is Go's
nil, otherwise the `Kind` of the object), and the file name and line that
`retVis.f.File(ident.Pos())` resolves its position to. -/
structure Ident where
  Name : Str
  Obj : Option ObjKind
  fileName : Str
  line : Nat
  deriving DecidableEq, Repr

/-- A node handed to the visitor by `ast.Walk`: an identifier, or anything else
(including the nil node that closes a subtree). -/
inductive Node where
  | ident (i : Ident)
  | other
  deriving DecidableEq, Repr

/-- An `*ast.File`, as the sequence of nodes `ast.Walk` presents to `Visit`
(depth first; `Visit` never prunes, it always returns the visitor). -/
abbrev File := List Node

/-- The `Flags` struct of identypo. -/
structure Flags where
  Ignores : Str
  IncludeTests : Bool
  FunctionsOnly : Bool
  ConstantsOnly : Bool
  VariablesOnly : Bool
  SetExitStatus : Bool
  deriving DecidableEq, Repr

/-- A `misspell.Diff`: one correction made by the replacer. -/
structure Diff where
  Original : Str
  Corrected : Str
  deriving DecidableEq, Repr

/-- The code outside the repository that `processIdentifiers` calls, over a
replacer state `R`: `misspell.New`, `(*Replacer).RemoveRule`,
`(*Replacer).Compile`, `(*Replacer).Replace`, `camelcase.Split`, and the table
`unicode.ToLower` that `strings.ToLower` applies to every character. -/
structure Deps (R : Type) where
  New : R
  RemoveRule : R → List Str → R
  Compile : R → R
  Replace : R → Str → Str × List Diff
  Split : Str → List Str
  ToLower : Char → Char

/-- How a call ends: `os.Exit(code)`, or a normal return of an `error`
(`none` is nil). -/
inductive Outcome where
  | exited (code : Nat)
  | returned (err : Option Str)
  deriving DecidableEq, Repr

/-- One call
`log.Printf("%v:%v %q should be %v in %v\n", fileName, line, word, v, ident.Name)`,
recorded by its five arguments. -/
structure Diagnostic where
  fileName : Str
  line : Nat
  word : Str
  v : Str
  name : Str
  deriving DecidableEq, Repr

/-- What a run does: the calls of `log.Printf` it makes, in order, and how it
ends. -/
structure Result where
  logs : List Diagnostic
  outcome : Outcome
  deriving DecidableEq, Repr

/-! ## Standard library pieces used by the scan -/

/-- Model of `strings.ToLower`: every character of the string mapped by
`unicode.ToLower`, the table `toLower`. -/
def strings.ToLower (toLower : Char → Char) (s : Str) : Str := s.map toLower

/-- Model of `strings.Split(s, sep)` for a one-character separator: the
substrings between separators; a string without separator gives itself, the
empty string gives one empty substring. -/
def strings.Split (s : Str) (sep : Char) : List Str :=
  match s with
  | [] => [[]]
  | c :: cs =>
    if c = sep then [] :: strings.Split cs sep
    else
      match strings.Split cs sep with
      | w :: ws => (c :: w) :: ws
      | [] => [[c]]

/-- The digit table `lowerhex` of strconv. -/
def lowerhex (n : Nat) : Char := "0123456789abcdef".toList.getD n '0'

/-- Model of `strconv.appendEscapedRune` with quote `"` as used by
`strconv.Quote`: quote and backslash are always backslashed, printable runes
are kept, the rest is escaped. -/
def appendEscapedRune (IsPrint : Char → Bool) (r : Char) : Str :=
  if r = '"' ∨ r = '\\' then ['\\', r]
  else if IsPrint r then [r]
  else if r = '\x07' then ['\\', 'a']
  else if r = '\x08' then ['\\', 'b']
  else if r = '\x0c' then ['\\', 'f']
  else if r = '\n' then ['\\', 'n']
  else if r = '\r' then ['\\', 'r']
  else if r = '\t' then ['\\', 't']
  else if r = '\x0b' then ['\\', 'v']
  else if r.toNat < 32 ∨ r.toNat = 127 then
    ['\\', 'x', lowerhex (r.toNat / 16), lowerhex (r.toNat % 16)]
  else if r.toNat < 65536 then
    ['\\', 'u'] ++ [12, 8, 4, 0].map (fun s => lowerhex (r.toNat / 2 ^ s % 16))
  else
    ['\\', 'U'] ++ [28, 24, 20, 16, 12, 8, 4, 0].map (fun s => lowerhex (r.toNat / 2 ^ s % 16))

/-- Model of `strconv.Quote`, which is what the `%q` verb prints for a string. -/
def strconv.Quote (IsPrint : Char → Bool) (s : Str) : Str :=
  ['"'] ++ (s.map (appendEscapedRune IsPrint)).flatten ++ ['"']

/-- Model of `%v` for an `int`: its decimal digits. -/
def itoa (n : Nat) : Str := Nat.toDigits 10 n

/-- The text a recorded `log.Printf` call writes (with the logger's prefix and
flags cleared, as `main` does): the format `"%v:%v %q should be %v in %v\n"`
applied to the arguments.  `IsPrint` is the Unicode table behind
`strconv.IsPrint`. -/
def Diagnostic.text (IsPrint : Char → Bool) (d : Diagnostic) : Str :=
  d.fileName ++ ":".toList ++ itoa d.line ++ " ".toList ++ strconv.Quote IsPrint d.word
    ++ " should be ".toList ++ d.v ++ " in ".toList ++ d.name ++ "\n".toList

/-! ## identifier_typo.go -/

/-- The `returnsVisitor` struct: the identifiers collected so far and the
replacer (the file set is folded into the positions stored in `Ident`). -/
structure returnsVisitor (R : Type) where
  identifiers : List Ident
  replacer : R

/-- The method `(v *returnsVisitor) Visit`: an `*ast.Ident` node is appended to
`v.identifiers`, any other node leaves the visitor unchanged. -/
def returnsVisitor.Visit {R : Type} (v : returnsVisitor R) (node : Node) : returnsVisitor R :=
  match node with
  | Node.ident funcDecl => { v with identifiers := v.identifiers ++ [funcDecl] }
  | Node.other => v

/-- Model of `ast.Walk(retVis, f)`: `Visit` is applied to every node of the file
in traversal order. -/
def astWalk {R : Type} (v : returnsVisitor R) (f : File) : returnsVisitor R :=
  f.foldl returnsVisitor.Visit v

/-- The mutable locals of the reporting loop of `processIdentifiers`:
`exitStatus` and what has been logged so far. -/
structure LoopState where
  exitStatus : Nat
  logs : List Diagnostic
  deriving DecidableEq, Repr

/-- The body of the inner loop of `processIdentifiers` (source lines 72-102)
for one `word` of `ident`. -/
def processWord {R : Type} (deps : Deps R) (replacer : R) (all : Bool) (flags : Flags)
    (ident : Ident) (st : LoopState) (word : Str) : LoopState :=
  let vd := deps.Replace replacer word
  let v := vd.1
  let d := vd.2
  if d.length > 0 then
    let st := { st with exitStatus := 1 }
    let fileName := ident.fileName
    let line := ident.line
    let msg : Diagnostic := ⟨fileName, line, word, v, ident.Name⟩
    if all then
      { st with logs := st.logs ++ [msg] }
    else
      match ident.Obj with
      | some kind =>
        match kind with
        | ObjKind.Fun =>
          if !flags.FunctionsOnly then st else { st with logs := st.logs ++ [msg] }
        | ObjKind.Var =>
          if !flags.VariablesOnly then st else { st with logs := st.logs ++ [msg] }
        | ObjKind.Con =>
          if !flags.ConstantsOnly then st else { st with logs := st.logs ++ [msg] }
        | _ => st
      | none => st
  else st

/-- The replacer `processIdentifiers` works with (source lines 49-59):
`misspell.New()`, minus the rules named in the lowercased `Ignores` when it is
not empty, then compiled. -/
def newReplacer {R : Type} (deps : Deps R) (flags : Flags) : R :=
  let replacer := deps.New
  let replacer :=
    if flags.Ignores.length > 0 then
      let lci := strings.ToLower deps.ToLower flags.Ignores
      deps.RemoveRule replacer (strings.Split lci ',')
    else replacer
  deps.Compile replacer

/-- The identifiers collected by walking the files (source lines 61-66); nil
files are skipped. -/
def collectIdentifiers {R : Type} (retVis : returnsVisitor R) (files : List (Option File)) :
    returnsVisitor R :=
  files.foldl (fun rv f =>
    match f with
    | none => rv
    | some f => astWalk rv f) retVis

/-- The reporting loop of `processIdentifiers` (source lines 68-104). -/
def reportLoop {R : Type} (deps : Deps R) (replacer : R) (all : Bool) (flags : Flags)
    (identifiers : List Ident) : LoopState :=
  identifiers.foldl (fun st ident =>
    (deps.Split ident.Name).foldl (processWord deps replacer all flags ident) st)
    { exitStatus := 0, logs := [] }

/-- The function `processIdentifiers`. -/
def processIdentifiers {R : Type} (deps : Deps R) (files : List (Option File)) (flags : Flags) :
    Result :=
  let all := !flags.FunctionsOnly && !flags.ConstantsOnly && !flags.VariablesOnly
  let retVis : returnsVisitor R := { identifiers := [], replacer := newReplacer deps flags }
  let retVis := collectIdentifiers retVis files
  let st := reportLoop deps retVis.replacer all flags retVis.identifiers
  if flags.SetExitStatus then
    { logs := st.logs, outcome := Outcome.exited st.exitStatus }
  else
    { logs := st.logs, outcome := Outcome.returned none }

/-- The function `CheckForIdentiferTypos`; `parseInput` (declared elsewhere in
the package) is taken as a parameter: from the arguments and `IncludeTests` it
gives the parsed files or an error. -/
def CheckForIdentiferTypos {R : Type} (deps : Deps R)
    (parseInput : List Str → Bool → Except Str (List (Option File)))
    (args : List Str) (flags : Flags) : Result :=
  match parseInput args flags.IncludeTests with
  | Except.error err =>
    { logs := [], outcome := Outcome.returned (some ("could not parse input ".toList ++ err)) }
  | Except.ok files => processIdentifiers deps files flags

/-! ## The spec's Kind Filter and per-identifier diagnostics (spec side) -/

/-- The spec's `KindFilter.accepts` (truth table of section 4.3), written from
the spec: with all three flags false every kind is accepted; otherwise a
Function is accepted iff `FunctionsOnly`, a Variable iff `VariablesOnly`, a
Constant iff `ConstantsOnly`, and any other identifier (no object, or an object
of another kind) is rejected. -/
def specAccepts (flags : Flags) (obj : Option ObjKind) : Bool :=
  if flags.FunctionsOnly = false ∧ flags.ConstantsOnly = false ∧ flags.VariablesOnly = false then
    true
  else
    match obj with
    | some ObjKind.Fun => flags.FunctionsOnly
    | some ObjKind.Var => flags.VariablesOnly
    | some ObjKind.Con => flags.ConstantsOnly
    | _ => false

/-- The diagnostics of one identifier whatever its kind, written from the spec:
one per segment that has a correction, in left-to-right segment order. -/
def matchedWords {R : Type} (deps : Deps R) (replacer : R) (ident : Ident) : List Diagnostic :=
  (deps.Split ident.Name).filterMap (fun word =>
    if (deps.Replace replacer word).2 = [] then none
    else some ⟨ident.fileName, ident.line, word, (deps.Replace replacer word).1, ident.Name⟩)

/-- The diagnostics the spec's scan emits for one identifier: those of its
matched words when the Kind Filter accepts it, none otherwise. -/
def specDiagnostics {R : Type} (deps : Deps R) (flags : Flags) (ident : Ident) : List Diagnostic :=
  if specAccepts flags ident.Obj then matchedWords deps (newReplacer deps flags) ident else []

/-- The identifiers `processIdentifiers` collects from the files, in order. -/
def identifiersOf (files : List (Option File)) : List Ident :=
  (collectIdentifiers (R := Unit) { identifiers := [], replacer := () } files).identifiers

/-- The flag that matches an object kind: `FunctionsOnly` for a function,
`VariablesOnly` for a variable, `ConstantsOnly` for a constant; no flag matches
another kind. -/
def ownFlag (flags : Flags) (k : ObjKind) : Bool :=
  match k with
  | ObjKind.Fun => flags.FunctionsOnly
  | ObjKind.Var => flags.VariablesOnly
  | ObjKind.Con => flags.ConstantsOnly
  | _ => false

/-! ## Spec-modelled corrector and segmenter -/

/-- The tables of Go's `unicode` package that the corrector and the segmenter
consult: which characters are lowercase letters, uppercase letters and digits,
and the lowercase and uppercase of a character. -/
structure UnicodeTables where
  IsLower : Char → Bool
  IsUpper : Char → Bool
  IsDigit : Char → Bool
  ToLower : Char → Char
  ToUpper : Char → Char

/-- Modelled from the spec: the corrector behind `misspell.Replacer`, whose
source is not in the repository (spec section 4.2, Corrector Adapter).  It holds
the dictionary rules (misspelling, correction) and whether `compile` has been
called. -/
structure Replacer where
  Replacements : List (Str × Str)
  compiled : Bool
  deriving DecidableEq, Repr

/-- Modelled from the spec: `suppress` of the Corrector Adapter
(`(*Replacer).RemoveRule`, source not in the repository): the rules of the given
words are removed entirely; after `compile` there is no further suppression. -/
def Replacer.RemoveRule (r : Replacer) (ignore : List Str) : Replacer :=
  if r.compiled then r
  else { r with Replacements := r.Replacements.filter (fun rule => !ignore.contains rule.1) }

/-- Modelled from the spec: `compile` of the Corrector Adapter
(`(*Replacer).Compile`, source not in the repository): finalizes suppression. -/
def Replacer.Compile (r : Replacer) : Replacer := { r with compiled := true }

/-- The case pattern of a word: all lowercase, capitalized, all uppercase, or
none of these. -/
inductive WordCase where
  | Lower
  | Title
  | Upper
  | Unknown
  deriving DecidableEq, Repr

/-- Modelled from the spec: the case pattern the corrector reads off a word
(its case handling, source not in the repository; spec section 4.2): all
lowercase when it has lowercase and no uppercase letters, all uppercase when it
has uppercase and no lowercase letters, capitalized when its only uppercase
letter is the first and lowercase letters follow. -/
def caseStyle (u : UnicodeTables) (word : Str) : WordCase :=
  let upperCount := word.countP u.IsUpper
  let lowerCount := word.countP u.IsLower
  if upperCount ≠ 0 ∧ lowerCount = 0 then WordCase.Upper
  else if upperCount = 0 ∧ lowerCount ≠ 0 then WordCase.Lower
  else if upperCount = 1 ∧ lowerCount > 0 ∧ word.head?.map u.IsUpper = some true then
    WordCase.Title
  else WordCase.Unknown

/-- Modelled from the spec: the casing of a suggestion (the corrector's case
handling, source not in the repository; spec section 4.2): an all-lowercase word
gets the stored correction in lowercase, a capitalized word gets it capitalized,
an all-uppercase word gets it in uppercase; a word of no such pattern gets no
suggestion. -/
def mirrorCase (u : UnicodeTables) (word corr : Str) : Option Str :=
  match caseStyle u word with
  | WordCase.Lower => some (corr.map u.ToLower)
  | WordCase.Upper => some (corr.map u.ToUpper)
  | WordCase.Title =>
    match corr with
    | s :: rest => some (u.ToUpper s :: rest.map u.ToLower)
    | [] => some []
  | WordCase.Unknown => none

/-- Modelled from the spec: `lookup` of the Corrector Adapter
(`(*Replacer).Replace`, source not in the repository): the word is case-folded
and looked up in the rules; a match gives the suggestion, cased after the word,
and one diff; no match gives the word back and no diff. -/
def Replacer.Replace (u : UnicodeTables) (r : Replacer) (word : Str) : Str × List Diff :=
  match r.Replacements.lookup (strings.ToLower u.ToLower word) with
  | some corr =>
    match mirrorCase u word corr with
    | some v => (v, [⟨word, v⟩])
    | none => (word, [])
  | none => (word, [])

/-- Modelled from the spec: the character classes the Word Segmenter splits on
(`camelcase.Split`, source not in the repository): lowercase letter, uppercase
letter, digit, anything else (the non-alphanumeric separators). -/
def charClass (u : UnicodeTables) (c : Char) : Nat :=
  if u.IsLower c then 1 else if u.IsUpper c then 2 else if u.IsDigit c then 3 else 4

/-- Modelled from the spec: the maximal runs of characters of one class
(first pass of `camelcase.Split`, source not in the repository): a word ends at
every case, digit/letter or separator boundary. -/
def classRuns (u : UnicodeTables) : Str → List Str
  | [] => []
  | c :: cs =>
    match classRuns u cs with
    | (d :: run) :: runs =>
      if charClass u c = charClass u d then (c :: d :: run) :: runs
      else [c] :: (d :: run) :: runs
    | runs => [c] :: runs

/-- Modelled from the spec: the acronym rule of the Word Segmenter (second pass
of `camelcase.Split`, source not in the repository): when an uppercase run is
followed by a lowercase run, the last uppercase letter opens the lowercase
word. -/
def acronymFix (u : UnicodeTables) (cur : Str) : List Str → List Str
  | [] => [cur]
  | next :: rest =>
    match cur.head?, cur.getLast?, next.head? with
    | some a, some l, some b =>
      if u.IsUpper a && u.IsLower b then cur.dropLast :: acronymFix u (l :: next) rest
      else cur :: acronymFix u next rest
    | _, _, _ => cur :: acronymFix u next rest

/-- Modelled from the spec: the Word Segmenter `segment` (`camelcase.Split`,
source not in the repository; spec section 4.1): class runs, acronym rule, and
no empty word. -/
def camelcase.Split (u : UnicodeTables) (src : Str) : List Str :=
  match classRuns u src with
  | [] => []
  | run :: runs => (acronymFix u run runs).filter (fun w => !w.isEmpty)

/-- The spec-modelled corrector and segmenter over Unicode tables `u` and a
dictionary `dict`, the rules of `misspell.New()`. -/
def specDepsOver (u : UnicodeTables) (dict : List (Str × Str)) : Deps Replacer where
  New := { Replacements := dict, compiled := false }
  RemoveRule := Replacer.RemoveRule
  Compile := Replacer.Compile
  Replace := Replacer.Replace u
  Split := camelcase.Split u
  ToLower := u.ToLower

/-- The rows of the Unicode tables for ASCII: `a` to `z` are the lowercase
letters, `A` to `Z` the uppercase letters, `0` to `9` the digits. -/
def asciiTables : UnicodeTables where
  IsLower := Char.isLower
  IsUpper := Char.isUpper
  IsDigit := Char.isDigit
  ToLower := Char.toLower
  ToUpper := Char.toUpper

/-- The ASCII rows together with the rows of the letters `ö`, `ü`, `Ö`, `Ü` and
`İ` (whose lowercase in `unicode.ToLower` is `i`). -/
def exampleTables : UnicodeTables where
  IsLower := fun c => c.isLower || c = 'ö' || c = 'ü'
  IsUpper := fun c => c.isUpper || c = 'Ö' || c = 'Ü' || c = 'İ'
  IsDigit := Char.isDigit
  ToLower := fun c =>
    if c = 'Ö' then 'ö' else if c = 'Ü' then 'ü' else if c = 'İ' then 'i' else c.toLower
  ToUpper := fun c => if c = 'ö' then 'Ö' else if c = 'ü' then 'Ü' else c.toUpper

/-- The spec-modelled corrector and segmenter on the ASCII rows, for inputs
written in ASCII. -/
def specDeps (dict : List (Str × Str)) : Deps Replacer := specDepsOver asciiTables dict

/-! ## Concrete inputs -/

/-- A small dictionary: rules of the corrector for the misspellings of the test
suite, each with the correction as the corrector stores it. -/
def exampleDict : List (Str × Str) :=
  [ ("begining".toList, "beginning".toList),
    ("alltime".toList, "all-time".toList),
    ("propogate".toList, "propagate".toList),
    ("nto".toList, "not".toList),
    ("inital".toList, "initial".toList),
    ("authorithy".toList, "authority".toList) ]

/-- The rows of `strconv.IsPrint` for ASCII: `0x20` to `0x7e` are printable. -/
def asciiIsPrint (c : Char) : Bool := decide (32 ≤ c.toNat ∧ c.toNat < 127)

/-- An identifier at `file.go`, line `line`. -/
def mkIdent (name : String) (obj : Option ObjKind) (line : Nat) : Ident :=
  { Name := name.toList, Obj := obj, fileName := "file.go".toList, line := line }

/-- Flags with everything off and no ignores. -/
def defaultFlags : Flags :=
  { Ignores := [], IncludeTests := false, FunctionsOnly := false, ConstantsOnly := false,
    VariablesOnly := false, SetExitStatus := false }

/-- The file `package main; const begining = 0` as `ast.Walk` presents it: the
file node, the package name, the declaration, the constant's name, its value. -/
def constFile : File :=
  [Node.other, Node.ident (mkIdent "main" none 1), Node.other, Node.other,
    Node.ident (mkIdent "begining" (some ObjKind.Con) 2), Node.other, Node.other]

/-- Flags with all three kind filters on: `FunctionsOnly`, `ConstantsOnly`,
`VariablesOnly`. -/
def allOnlyFlags : Flags :=
  { defaultFlags with FunctionsOnly := true, ConstantsOnly := true, VariablesOnly := true }

/-- The name of `func PropogateFunc() {}` on line 4. -/
def propogateFunc : Ident := mkIdent "PropogateFunc" (some ObjKind.Fun) 4

/-- The label `initalLabel:` on line 3. -/
def initalLabel : Ident := mkIdent "initalLabel" (some ObjKind.Lbl) 3

/-- The package name of `package inital`: an identifier without object. -/
def initalPackage : Ident := mkIdent "inital" none 1

/-- Flags of the run `-functions -set_exit_status`. -/
def functionsExitFlags : Flags :=
  { defaultFlags with FunctionsOnly := true, SetExitStatus := true }

/-- The name of `func Propogate() {}` on line 2. -/
def propogateIdent : Ident := mkIdent "Propogate" (some ObjKind.Fun) 2

/-- An input resolution for the examples: the argument `file.go` resolves to
the file with `func Propogate() {}`, anything else fails. -/
def exampleParseInput (args : List Str) (_includeTests : Bool) :
    Except Str (List (Option File)) :=
  if args = ["file.go".toList] then Except.ok [some [Node.ident propogateIdent]]
  else Except.error "invalid file specified".toList

/-- A capitalised word: one uppercase letter followed by one or more lowercase
letters. -/
def isCapitalisedWord (u : UnicodeTables) (w : Str) : Bool :=
  match w with
  | a :: c :: r => u.IsUpper a && (c :: r).all u.IsLower
  | _ => false

/-- The class runs of a sequence of capitalised words: for each word, its first
letter and then its lowercase rest. -/
def runsOfWords (ws : List Str) : List Str :=
  ws.flatMap (fun w =>
    match w with
    | u :: r => [[u], r]
    | [] => [])

/-- The name of `const begining = 0` on line 2. -/
def beginingConst : Ident := mkIdent "begining" (some ObjKind.Con) 2

/-- The file of the test "misspelled function/variable/constant (with
functions/variables/constants=true)": `const begining = true`,
`var propogate = false`, `func PropogateFunc() {}` on lines 2 to 4, as
`ast.Walk` presents it (`true` and `false` are identifiers without object
here). -/
def allKindsFile : File :=
  [Node.other, Node.ident (mkIdent "main" none 1),
    Node.other, Node.other, Node.ident (mkIdent "begining" (some ObjKind.Con) 2),
    Node.ident (mkIdent "true" none 2), Node.other, Node.other,
    Node.other, Node.other, Node.ident (mkIdent "propogate" (some ObjKind.Var) 3),
    Node.ident (mkIdent "false" none 3), Node.other, Node.other,
    Node.other, Node.ident propogateFunc, Node.other, Node.other, Node.other]

/-- Flags of the run `-functions`. -/
def functionsOnlyFlags : Flags := { defaultFlags with FunctionsOnly := true }

/-- Flags of the run `-i=nto,Begİning`. -/
def ignoreTwoFlags : Flags := { defaultFlags with Ignores := "nto,Begİning".toList }

/-- The names of `func nto() {}` on line 2 and `func begining() {}` on line 3,
as `ast.Walk` presents the file. -/
def twoFuncsFile : File :=
  [Node.other, Node.ident (mkIdent "main" none 1),
    Node.other, Node.ident (mkIdent "nto" (some ObjKind.Fun) 2), Node.other, Node.other,
    Node.other, Node.ident (mkIdent "begining" (some ObjKind.Fun) 3), Node.other, Node.other,
    Node.other]

/-- The name of `func Alltime() {}` on line 2. -/
def alltimeFunc : Ident := mkIdent "Alltime" (some ObjKind.Fun) 2

/-- The name of `func alltime() {}` on line 2. -/
def alltimeLowerFunc : Ident := mkIdent "alltime" (some ObjKind.Fun) 2

/-! ## The loops of `processIdentifiers` -/

theorem visit_identifiers {R : Type} (v : returnsVisitor R) (node : Node) :
    (v.Visit node).replacer = v.replacer ∧
      (v.Visit node).identifiers = v.identifiers ++
        (match node with
          | Node.ident i => [i]
          | Node.other => []) := by
  cases node <;> simp [returnsVisitor.Visit]

theorem astWalk_spec {R : Type} (f : File) (v : returnsVisitor R) :
    (astWalk v f).replacer = v.replacer ∧
      (astWalk v f).identifiers = v.identifiers ++
        f.flatMap (fun node =>
          match node with
          | Node.ident i => [i]
          | Node.other => []) := by
  induction f generalizing v with
  | nil => simp [astWalk]
  | cons node f ih =>
    have h := ih (v.Visit node)
    have hv := visit_identifiers v node
    simp only [astWalk, List.foldl_cons] at h ⊢
    rw [h.1, h.2, hv.1, hv.2]
    simp

theorem collect_spec {R : Type} (files : List (Option File)) (v : returnsVisitor R) :
    (collectIdentifiers v files).replacer = v.replacer ∧
      (collectIdentifiers v files).identifiers = v.identifiers ++
        files.flatMap (fun f =>
          match f with
          | none => []
          | some f => f.flatMap (fun node =>
            match node with
            | Node.ident i => [i]
            | Node.other => [])) := by
  induction files generalizing v with
  | nil => simp [collectIdentifiers]
  | cons f files ih =>
    cases f with
    | none =>
      have h := ih v
      simp only [collectIdentifiers, List.foldl_cons] at h ⊢
      rw [h.1, h.2]
      simp
    | some f =>
      have h := ih (astWalk v f)
      have hw := astWalk_spec f v
      simp only [collectIdentifiers, List.foldl_cons] at h ⊢
      rw [h.1, h.2, hw.1, hw.2]
      simp

theorem identifiersOf_eq (files : List (Option File)) :
    identifiersOf files =
      files.flatMap (fun f =>
        match f with
        | none => []
        | some f => f.flatMap (fun node =>
          match node with
          | Node.ident i => [i]
          | Node.other => [])) := by
  unfold identifiersOf
  rw [(collect_spec files _).2]
  simp

theorem identifiersOf_append (fs1 fs2 : List (Option File)) :
    identifiersOf (fs1 ++ fs2) = identifiersOf fs1 ++ identifiersOf fs2 := by
  simp [identifiersOf_eq]

theorem identifiersOf_single (i : Ident) : identifiersOf [some [Node.ident i]] = [i] := by
  simp [identifiersOf_eq]

theorem collect_identifiers {R : Type} (files : List (Option File)) (r : R) :
    (collectIdentifiers { identifiers := [], replacer := r } files).identifiers
      = identifiersOf files := by
  rw [(collect_spec files _).2, identifiersOf_eq]
  simp

theorem collect_replacer {R : Type} (files : List (Option File)) (r : R) :
    (collectIdentifiers { identifiers := [], replacer := r } files).replacer = r :=
  (collect_spec files _).1

/-- The contribution of one word to the log, as the loop body computes it. -/
theorem processWord_logs {R : Type} (deps : Deps R) (r : R) (flags : Flags) (ident : Ident)
    (st : LoopState) (word : Str) :
    (processWord deps r (!flags.FunctionsOnly && !flags.ConstantsOnly && !flags.VariablesOnly)
        flags ident st word).logs
      = st.logs ++
        (if specAccepts flags ident.Obj then
          (if (deps.Replace r word).2 = [] then []
           else [⟨ident.fileName, ident.line, word, (deps.Replace r word).1, ident.Name⟩])
         else []) := by
  unfold processWord specAccepts
  by_cases hd : (deps.Replace r word).2 = []
  · simp [hd]
  · have hpos : (deps.Replace r word).2.length > 0 := List.length_pos.mpr hd
    simp only [hpos, hd, if_true, if_false]
    rcases flags with ⟨ig, it, fo, co, vo, se⟩
    rcases ident with ⟨name, obj, fn, ln⟩
    cases fo <;> cases co <;> cases vo <;> simp <;>
      (cases obj with
        | none => simp
        | some k => cases k <;> simp)

/-- The exit status after one word. -/
theorem processWord_exitStatus {R : Type} (deps : Deps R) (r : R) (all : Bool) (flags : Flags)
    (ident : Ident) (st : LoopState) (word : Str) :
    (processWord deps r all flags ident st word).exitStatus
      = if (deps.Replace r word).2 = [] then st.exitStatus else 1 := by
  unfold processWord
  by_cases hd : (deps.Replace r word).2 = []
  · simp [hd]
  · have hpos : (deps.Replace r word).2.length > 0 := List.length_pos.mpr hd
    simp only [hpos, hd, if_true, if_false]
    cases all
    · cases hobj : ident.Obj with
      | none => simp
      | some k => cases k <;> simp <;> split <;> rfl
    · simp

/-- The inner loop over an arbitrary list of words. -/
theorem words_fold {R : Type} (deps : Deps R) (r : R) (flags : Flags) (ident : Ident)
    (words : List Str) (st : LoopState) :
    (words.foldl (processWord deps r
        (!flags.FunctionsOnly && !flags.ConstantsOnly && !flags.VariablesOnly) flags ident) st).logs
      = st.logs ++
        (if specAccepts flags ident.Obj then
          words.filterMap (fun word =>
            if (deps.Replace r word).2 = [] then none
            else some ⟨ident.fileName, ident.line, word, (deps.Replace r word).1, ident.Name⟩)
         else [])
    ∧ (words.foldl (processWord deps r
        (!flags.FunctionsOnly && !flags.ConstantsOnly && !flags.VariablesOnly) flags ident)
          st).exitStatus
      = if words.filterMap (fun word =>
            if (deps.Replace r word).2 = [] then none
            else some (⟨ident.fileName, ident.line, word, (deps.Replace r word).1, ident.Name⟩ :
              Diagnostic)) = []
        then st.exitStatus else 1 := by
  induction words generalizing st with
  | nil => simp
  | cons w ws ih =>
    simp only [List.foldl_cons]
    have h := ih (processWord deps r
      (!flags.FunctionsOnly && !flags.ConstantsOnly && !flags.VariablesOnly) flags ident st w)
    rw [h.1, h.2, processWord_logs, processWord_exitStatus]
    by_cases hd : (deps.Replace r w).2 = []
    · simp [hd, List.filterMap_cons]
    · by_cases ha : specAccepts flags ident.Obj = true
      · simp [hd, ha, List.filterMap_cons]
      · simp [hd, ha, List.filterMap_cons]

/-- The reporting loop: the log is the concatenation of the per-identifier
diagnostics of the accepted identifiers, and the exit status is 1 exactly when
some identifier has a matched word. -/
theorem reportLoop_spec {R : Type} (deps : Deps R) (r : R) (flags : Flags)
    (identifiers : List Ident) :
    (reportLoop deps r (!flags.FunctionsOnly && !flags.ConstantsOnly && !flags.VariablesOnly)
        flags identifiers).logs
      = identifiers.flatMap (fun ident =>
          if specAccepts flags ident.Obj then matchedWords deps r ident else [])
    ∧ (reportLoop deps r (!flags.FunctionsOnly && !flags.ConstantsOnly && !flags.VariablesOnly)
        flags identifiers).exitStatus
      = if identifiers.flatMap (matchedWords deps r) = [] then 0 else 1 := by
  unfold reportLoop
  suffices h : ∀ st : LoopState,
      (identifiers.foldl (fun st ident =>
        (deps.Split ident.Name).foldl (processWord deps r
          (!flags.FunctionsOnly && !flags.ConstantsOnly && !flags.VariablesOnly) flags ident) st)
        st).logs
        = st.logs ++ identifiers.flatMap (fun ident =>
          if specAccepts flags ident.Obj then matchedWords deps r ident else [])
      ∧ (identifiers.foldl (fun st ident =>
        (deps.Split ident.Name).foldl (processWord deps r
          (!flags.FunctionsOnly && !flags.ConstantsOnly && !flags.VariablesOnly) flags ident) st)
        st).exitStatus
        = if identifiers.flatMap (matchedWords deps r) = [] then st.exitStatus else 1 by
    have h0 := h { exitStatus := 0, logs := [] }
    simpa using h0
  induction identifiers with
  | nil => intro st; simp
  | cons ident rest ih =>
    intro st
    simp only [List.foldl_cons]
    have h := ih ((deps.Split ident.Name).foldl (processWord deps r
      (!flags.FunctionsOnly && !flags.ConstantsOnly && !flags.VariablesOnly) flags ident) st)
    have hw := words_fold deps r flags ident (deps.Split ident.Name) st
    rw [h.1, h.2, hw.1, hw.2]
    constructor
    · by_cases ha : specAccepts flags ident.Obj = true
      · simp [ha, matchedWords, List.flatMap_cons]
      · simp [ha, matchedWords, List.flatMap_cons]
    · by_cases hm : matchedWords deps r ident = []
      · have hm2 := hm
        unfold matchedWords at hm2
        simp [hm, hm2, List.flatMap_cons]
      · have hm2 := hm
        unfold matchedWords at hm2
        simp [hm, hm2, List.flatMap_cons]

/-- The log of `processIdentifiers`. -/
theorem processIdentifiers_logs {R : Type} (deps : Deps R) (files : List (Option File))
    (flags : Flags) :
    (processIdentifiers deps files flags).logs
      = (identifiersOf files).flatMap (specDiagnostics deps flags) := by
  have h := (reportLoop_spec deps (newReplacer deps flags) flags (identifiersOf files)).1
  unfold processIdentifiers
  simp only [collect_identifiers, collect_replacer]
  have hfun : (fun ident => if specAccepts flags ident.Obj = true
      then matchedWords deps (newReplacer deps flags) ident else [])
      = specDiagnostics deps flags := by
    funext ident
    rfl
  cases flags.SetExitStatus <;> simp [h, hfun]

/-- The outcome of `processIdentifiers`. -/
theorem processIdentifiers_outcome {R : Type} (deps : Deps R) (files : List (Option File))
    (flags : Flags) :
    (processIdentifiers deps files flags).outcome
      = if flags.SetExitStatus then
          Outcome.exited
            (if (identifiersOf files).flatMap (matchedWords deps (newReplacer deps flags)) = []
              then 0 else 1)
        else Outcome.returned none := by
  have h := (reportLoop_spec deps (newReplacer deps flags) flags (identifiersOf files)).2
  unfold processIdentifiers
  simp only [collect_identifiers, collect_replacer]
  cases flags.SetExitStatus <;> simp [h]

theorem logs_append {R : Type} (deps : Deps R) (fs1 fs2 : List (Option File)) (flags : Flags) :
    (processIdentifiers deps (fs1 ++ fs2) flags).logs
      = (processIdentifiers deps fs1 flags).logs ++ (processIdentifiers deps fs2 flags).logs := by
  simp [processIdentifiers_logs, identifiersOf_append]

theorem logs_single {R : Type} (deps : Deps R) (ident : Ident) (flags : Flags) :
    (processIdentifiers deps [some [Node.ident ident]] flags).logs
      = specDiagnostics deps flags ident := by
  simp [processIdentifiers_logs, identifiersOf_single]

theorem mem_matchedWords {R : Type} (deps : Deps R) (r : R) (ident : Ident) (d : Diagnostic) :
    d ∈ matchedWords deps r ident ↔
      ∃ word, word ∈ deps.Split ident.Name ∧ (deps.Replace r word).2 ≠ [] ∧
        d = ⟨ident.fileName, ident.line, word, (deps.Replace r word).1, ident.Name⟩ := by
  unfold matchedWords
  rw [List.mem_filterMap]
  constructor
  · rintro ⟨word, hw, h⟩
    by_cases hd : (deps.Replace r word).2 = []
    · simp [hd] at h
    · simp only [hd, if_false, Option.some.injEq] at h
      exact ⟨word, hw, hd, h.symm⟩
  · rintro ⟨word, hw, hd, rfl⟩
    exact ⟨word, hw, by simp [hd]⟩

theorem newReplacer_congr {R : Type} (deps : Deps R) (flags flags2 : Flags)
    (h : flags2.Ignores = flags.Ignores) : newReplacer deps flags2 = newReplacer deps flags := by
  unfold newReplacer
  rw [h]

/-! ## Kind filter -/

/-- C1: for an identifier whose object kind is Function, Variable or Constant
and a word of it that has a correction, under every flag combination: the
identifier's part of the log sits between the parts of the files before and
after it; the diagnostic of the word is logged if and only if all three flags
are false or the flag of the identifier's own kind is true; and any two flag
settings that have the own-kind flag true (and the same Ignores) log the same
for the identifier, whatever the other two flags are. -/
theorem kind_filter_own_flag {R : Type} (deps : Deps R) (fs1 fs2 : List (Option File))
    (flags : Flags) (ident : Ident) (k : ObjKind) (word : Str)
    (hobj : ident.Obj = some k)
    (hk : k = ObjKind.Fun ∨ k = ObjKind.Var ∨ k = ObjKind.Con)
    (hword : word ∈ deps.Split ident.Name)
    (hcorr : (deps.Replace (newReplacer deps flags) word).2 ≠ []) :
    (processIdentifiers deps (fs1 ++ [some [Node.ident ident]] ++ fs2) flags).logs
        = (processIdentifiers deps fs1 flags).logs
          ++ (processIdentifiers deps [some [Node.ident ident]] flags).logs
          ++ (processIdentifiers deps fs2 flags).logs
    ∧ ((⟨ident.fileName, ident.line, word, (deps.Replace (newReplacer deps flags) word).1,
          ident.Name⟩ : Diagnostic)
          ∈ (processIdentifiers deps [some [Node.ident ident]] flags).logs
        ↔ (flags.FunctionsOnly = false ∧ flags.ConstantsOnly = false
            ∧ flags.VariablesOnly = false) ∨ ownFlag flags k = true)
    ∧ (∀ flags2 : Flags, flags2.Ignores = flags.Ignores →
        ownFlag flags k = true → ownFlag flags2 k = true →
        (processIdentifiers deps [some [Node.ident ident]] flags2).logs
          = (processIdentifiers deps [some [Node.ident ident]] flags).logs) := by
  have hacc : ∀ fl : Flags, specAccepts fl ident.Obj
      = (decide (fl.FunctionsOnly = false ∧ fl.ConstantsOnly = false ∧ fl.VariablesOnly = false)
          || ownFlag fl k) := by
    intro fl
    rw [hobj]
    rcases fl with ⟨ig, it, fo, co, vo, se⟩
    rcases hk with rfl | rfl | rfl <;> cases fo <;> cases co <;> cases vo <;>
      simp [specAccepts, ownFlag]
  refine ⟨?_, ?_, ?_⟩
  · rw [logs_append, logs_append]
  · rw [logs_single]
    unfold specDiagnostics
    constructor
    · intro hmem
      by_cases ha : specAccepts flags ident.Obj = true
      · rw [hacc] at ha
        simpa using ha
      · simp [ha] at hmem
    · intro hc
      have ha : specAccepts flags ident.Obj = true := by
        rw [hacc]
        simpa using hc
      rw [if_pos ha, mem_matchedWords]
      exact ⟨word, hword, hcorr, rfl⟩
  · intro flags2 hig h1 h2
    rw [logs_single, logs_single]
    unfold specDiagnostics
    rw [hacc, hacc, h1, h2, newReplacer_congr deps flags flags2 hig]
    simp

theorem kind_filter_own_flag_witness :
    "Propogate".toList ∈ (specDeps exampleDict).Split propogateFunc.Name
    ∧ ((specDeps exampleDict).Replace (newReplacer (specDeps exampleDict) allOnlyFlags)
        "Propogate".toList).2 ≠ []
    ∧ (⟨"file.go".toList, 4, "Propogate".toList, "Propagate".toList, "PropogateFunc".toList⟩ :
        Diagnostic)
        ∈ (processIdentifiers (specDeps exampleDict) [some [Node.ident propogateFunc]]
            allOnlyFlags).logs :=
  ⟨by decide, by decide,
    (kind_filter_own_flag (specDeps exampleDict) [none] [some constFile] allOnlyFlags
      propogateFunc ObjKind.Fun "Propogate".toList rfl (Or.inl rfl) (by decide)
      (by decide)).2.1.mpr (Or.inr rfl)⟩

/-- C2: for an identifier of kind Other (no resolved object, or an object kind
other than Function, Variable and Constant) and a word of it that has a
correction: the diagnostic of the word is logged if and only if FunctionsOnly,
ConstantsOnly and VariablesOnly are all false; and when at least one of the
three flags is true nothing at all is logged for the identifier, wherever it
stands among the files. -/
theorem kind_filter_other {R : Type} (deps : Deps R) (fs1 fs2 : List (Option File))
    (flags : Flags) (ident : Ident) (word : Str)
    (hother : ident.Obj = none ∨ ∃ k, ident.Obj = some k ∧ k ≠ ObjKind.Fun ∧ k ≠ ObjKind.Var
      ∧ k ≠ ObjKind.Con)
    (hword : word ∈ deps.Split ident.Name)
    (hcorr : (deps.Replace (newReplacer deps flags) word).2 ≠ []) :
    ((⟨ident.fileName, ident.line, word, (deps.Replace (newReplacer deps flags) word).1,
          ident.Name⟩ : Diagnostic)
          ∈ (processIdentifiers deps [some [Node.ident ident]] flags).logs
        ↔ flags.FunctionsOnly = false ∧ flags.ConstantsOnly = false
            ∧ flags.VariablesOnly = false)
    ∧ ((flags.FunctionsOnly = true ∨ flags.ConstantsOnly = true ∨ flags.VariablesOnly = true) →
        (processIdentifiers deps [some [Node.ident ident]] flags).logs = []
        ∧ (processIdentifiers deps (fs1 ++ [some [Node.ident ident]] ++ fs2) flags).logs
          = (processIdentifiers deps (fs1 ++ fs2) flags).logs) := by
  have hacc : specAccepts flags ident.Obj
      = decide (flags.FunctionsOnly = false ∧ flags.ConstantsOnly = false
          ∧ flags.VariablesOnly = false) := by
    rcases flags with ⟨ig, it, fo, co, vo, se⟩
    rcases hother with h | ⟨k, h, h1, h2, h3⟩
    · rw [h]
      cases fo <;> cases co <;> cases vo <;> simp [specAccepts]
    · rw [h]
      cases k <;> cases fo <;> cases co <;> cases vo <;> simp_all [specAccepts]
  constructor
  · rw [logs_single]
    unfold specDiagnostics
    constructor
    · intro hmem
      by_cases ha : specAccepts flags ident.Obj = true
      · rw [hacc] at ha
        simpa using ha
      · simp [ha] at hmem
    · intro hc
      have ha : specAccepts flags ident.Obj = true := by
        rw [hacc]
        simpa using hc
      rw [if_pos ha, mem_matchedWords]
      exact ⟨word, hword, hcorr, rfl⟩
  · intro hflag
    have hna : specAccepts flags ident.Obj = false := by
      rw [hacc]
      rcases hflag with h | h | h <;> simp [h]
    have hnil : (processIdentifiers deps [some [Node.ident ident]] flags).logs = [] := by
      rw [logs_single]
      unfold specDiagnostics
      simp [hna]
    refine ⟨hnil, ?_⟩
    rw [logs_append, logs_append, hnil, logs_append]
    simp

theorem kind_filter_other_witness :
    "inital".toList ∈ (specDeps exampleDict).Split initalLabel.Name
    ∧ ((specDeps exampleDict).Replace (newReplacer (specDeps exampleDict) allOnlyFlags)
        "inital".toList).2 ≠ []
    ∧ (processIdentifiers (specDeps exampleDict) [some [Node.ident initalLabel]]
        allOnlyFlags).logs = []
    ∧ (⟨"file.go".toList, 1, "inital".toList, "initial".toList, "inital".toList⟩ : Diagnostic)
        ∈ (processIdentifiers (specDeps exampleDict) [some [Node.ident initalPackage]]
            defaultFlags).logs :=
  ⟨by decide, by decide,
    ((kind_filter_other (specDeps exampleDict) [] [] allOnlyFlags initalLabel "inital".toList
      (Or.inr ⟨ObjKind.Lbl, rfl, by decide, by decide, by decide⟩) (by decide)
      (by decide)).2 (Or.inl rfl)).1,
    (kind_filter_other (specDeps exampleDict) [] [] defaultFlags initalPackage "inital".toList
      (Or.inl rfl) (by decide) (by decide)).1.mpr ⟨rfl, rfl, rfl⟩⟩

theorem matchedWords_relocate {R : Type} (deps : Deps R) (r : R) (ident : Ident) (f : Str)
    (l : Nat) :
    (matchedWords deps r { ident with fileName := f, line := l }).length
      = (matchedWords deps r ident).length := by
  unfold matchedWords
  simp only
  induction deps.Split ident.Name with
  | nil => rfl
  | cons w ws ih =>
    by_cases hd : (deps.Replace r w).2 = []
    · simpa [List.filterMap_cons, hd] using ih
    · simpa [List.filterMap_cons, hd] using ih

/-! ## Order of the diagnostics -/

/-- C3: for every files and flags, the log of processIdentifiers is the
concatenation, over the identifiers in the order they were collected, of the
diagnostics of each identifier (one per matched word of an accepted
identifier, in left-to-right segment order); the log of files fs1 followed by
fs2 is the log of fs1 followed by the log of fs2; and an identifier followed by
an identifier of the same name and kind at another site logs the diagnostics of
both sites, twice as many as for one site. -/
theorem diagnostics_in_order {R : Type} (deps : Deps R) (files fs1 fs2 : List (Option File))
    (flags : Flags) (ident : Ident) (f : Str) (l : Nat) :
    (processIdentifiers deps files flags).logs
        = (identifiersOf files).flatMap (specDiagnostics deps flags)
    ∧ identifiersOf (fs1 ++ fs2) = identifiersOf fs1 ++ identifiersOf fs2
    ∧ (processIdentifiers deps (fs1 ++ fs2) flags).logs
        = (processIdentifiers deps fs1 flags).logs ++ (processIdentifiers deps fs2 flags).logs
    ∧ (processIdentifiers deps
          [some [Node.ident ident, Node.ident { ident with fileName := f, line := l }]] flags).logs
        = specDiagnostics deps flags ident
          ++ specDiagnostics deps flags { ident with fileName := f, line := l }
    ∧ (processIdentifiers deps
          [some [Node.ident ident, Node.ident { ident with fileName := f, line := l }]]
          flags).logs.length
        = 2 * (processIdentifiers deps [some [Node.ident ident]] flags).logs.length := by
  have h2 : (processIdentifiers deps
        [some [Node.ident ident, Node.ident { ident with fileName := f, line := l }]] flags).logs
      = specDiagnostics deps flags ident
        ++ specDiagnostics deps flags { ident with fileName := f, line := l } := by
    simp [processIdentifiers_logs, identifiersOf_eq]
  refine ⟨processIdentifiers_logs deps files flags, identifiersOf_append fs1 fs2,
    logs_append deps fs1 fs2 flags, h2, ?_⟩
  rw [h2, logs_single, List.length_append]
  have hlen : (specDiagnostics deps flags { ident with fileName := f, line := l }).length
      = (specDiagnostics deps flags ident).length := by
    unfold specDiagnostics
    by_cases ha : specAccepts flags ident.Obj = true
    · simp only [ha, if_true]
      exact matchedWords_relocate deps _ ident f l
    · simp [ha]
  rw [hlen]
  omega

/-! ## Exit status -/

/-- C4 (failing input): with `-functions -set_exit_status` on the file
`package main; const begining = 0`, processIdentifiers logs no diagnostic and
yet calls `os.Exit(1)`. -/
theorem exit_status_without_diagnostic :
    processIdentifiers (specDeps exampleDict) [some constFile] functionsExitFlags
      = { logs := [], outcome := Outcome.exited 1 } := by
  decide

/-! ## Characters and strings -/

theorem char_toNat_ofNat (n : Nat) (h : n < 55296) : (Char.ofNat n).toNat = n := by
  have hv : n.isValidChar := Or.inl h
  unfold Char.ofNat
  rw [dif_pos hv]
  simp [Char.ofNatAux, Char.toNat, UInt32.toNat]

theorem char_isLower_iff (c : Char) : c.isLower = true ↔ 97 ≤ c.toNat ∧ c.toNat ≤ 122 := by
  simp [Char.isLower, Char.toNat, UInt32.le_def, BitVec.le_def, UInt32.toNat]

theorem char_isUpper_iff (c : Char) : c.isUpper = true ↔ 65 ≤ c.toNat ∧ c.toNat ≤ 90 := by
  simp [Char.isUpper, Char.toNat, UInt32.le_def, BitVec.le_def, UInt32.toNat]

theorem char_eq_of_toNat (c d : Char) (h : c.toNat = d.toNat) : c = d := by
  rw [← Char.ofNat_toNat c, ← Char.ofNat_toNat d, h]

theorem char_toLower_toNat (c : Char) :
    c.toLower.toNat = if 65 ≤ c.toNat ∧ c.toNat ≤ 90 then c.toNat + 32 else c.toNat := by
  unfold Char.toLower
  by_cases h : 65 ≤ c.toNat ∧ c.toNat ≤ 90
  · simp only [ge_iff_le, h, and_self, if_true]
    exact char_toNat_ofNat _ (by omega)
  · simp only [ge_iff_le, h, if_false]

theorem char_toLower_eq_comma (c : Char) : c.toLower = ',' ↔ c = ',' := by
  constructor
  · intro h
    have h1 := congrArg Char.toNat h
    rw [char_toLower_toNat] at h1
    apply char_eq_of_toNat
    have h44 : (',' : Char).toNat = 44 := by decide
    rw [h44] at h1 ⊢
    split at h1 <;> omega
  · rintro rfl
    decide

/-- Lowercasing commutes with splitting at commas, for a table that maps the
comma to itself and nothing else to it. -/
theorem split_toLower (toLower : Char → Char) (hcomma : ∀ c, toLower c = ',' ↔ c = ',')
    (s : Str) :
    strings.Split (strings.ToLower toLower s) ','
      = (strings.Split s ',').map (strings.ToLower toLower) := by
  induction s with
  | nil => rfl
  | cons c cs ih =>
    unfold strings.ToLower at ih ⊢
    simp only [List.map_cons, strings.Split]
    by_cases hc : c = ','
    · subst hc
      have hl : toLower ',' = ',' := (hcomma ',').mpr rfl
      simp [hl, ih]
    · have hl : ¬ toLower c = ',' := fun h => hc ((hcomma c).mp h)
      simp only [hl, hc, if_false]
      rw [ih]
      cases strings.Split cs ',' with
      | nil => simp
      | cons w ws => simp

theorem lookup_filter_ignored (rules : List (Str × Str)) (ignore : List Str) (key : Str)
    (h : key ∈ ignore) :
    (rules.filter (fun rule => !ignore.contains rule.1)).lookup key = none := by
  induction rules with
  | nil => rfl
  | cons rule rules ih =>
    rcases rule with ⟨k, v⟩
    by_cases hk : k ∈ ignore
    · have hf : (!ignore.contains k) = false := by simp [hk]
      rw [List.filter_cons]
      simp only [hf]
      exact ih
    · have hne : (key == k) = false := by
        simp only [beq_eq_false_iff_ne, ne_eq]
        rintro rfl
        exact hk h
      have hf : (!ignore.contains k) = true := by simp [hk]
      rw [List.filter_cons]
      simp only [hf, if_true, List.lookup, hne]
      exact ih

theorem split_no_empty_word (u : UnicodeTables) (src : Str) :
    ([] : Str) ∉ camelcase.Split u src := by
  unfold camelcase.Split
  cases classRuns u src with
  | nil => simp
  | cons run runs => simp [List.mem_filter]

/-- The spec-modelled corrector finds nothing for a word whose rule key is
among the removed words. -/
theorem replace_removed (u : UnicodeTables) (dict : List (Str × Str)) (ignore : List Str)
    (w : Str) (h : strings.ToLower u.ToLower w ∈ ignore) :
    (Replacer.Replace u
      (Replacer.Compile (Replacer.RemoveRule { Replacements := dict, compiled := false } ignore))
      w).2 = [] := by
  unfold Replacer.Replace Replacer.Compile Replacer.RemoveRule
  simp only [Bool.false_eq_true, if_false]
  rw [lookup_filter_ignored dict ignore _ h]

theorem exampleTables_comma (c : Char) : exampleTables.ToLower c = ',' ↔ c = ',' := by
  unfold exampleTables
  simp only
  by_cases h1 : c = 'Ö'
  · subst h1
    decide
  · by_cases h2 : c = 'Ü'
    · subst h2
      decide
    · by_cases h3 : c = 'İ'
      · subst h3
        decide
      · simp only [h1, h2, h3, if_false]
        exact char_toLower_eq_comma c

/-! ## Ignores -/

/-- C5: over the spec-modelled corrector and segmenter, for every Unicode
tables (whose lowercase table maps the comma to itself and nothing else to it),
every dictionary, files and flags, and every word w whose lowercase form equals
the lowercase form of a comma-separated entry e of Ignores: no logged diagnostic
has w as its misspelled word; and when Ignores is not empty, the replacer used
for every lookup is the new replacer with the lowercased entries removed first
and compiled afterwards, it holds no rule for the lowercase of w, and its lookup
of w finds no correction. -/
theorem ignores_suppress (u : UnicodeTables) (hcomma : ∀ c, u.ToLower c = ',' ↔ c = ',')
    (dict : List (Str × Str)) (files : List (Option File)) (flags : Flags)
    (w e : Str) (he : e ∈ strings.Split flags.Ignores ',')
    (hw : strings.ToLower u.ToLower w = strings.ToLower u.ToLower e) :
    (∀ d ∈ (processIdentifiers (specDepsOver u dict) files flags).logs, d.word ≠ w)
    ∧ (flags.Ignores ≠ [] →
        newReplacer (specDepsOver u dict) flags
          = Replacer.Compile (Replacer.RemoveRule { Replacements := dict, compiled := false }
              (strings.Split (strings.ToLower u.ToLower flags.Ignores) ','))
        ∧ (∀ rule ∈ (newReplacer (specDepsOver u dict) flags).Replacements,
            rule.1 ≠ strings.ToLower u.ToLower w)
        ∧ (Replacer.Replace u (newReplacer (specDepsOver u dict) flags) w).2 = []) := by
  have hin : strings.ToLower u.ToLower w
      ∈ strings.Split (strings.ToLower u.ToLower flags.Ignores) ',' := by
    rw [split_toLower u.ToLower hcomma, hw]
    exact List.mem_map_of_mem _ he
  have hnew : flags.Ignores ≠ [] →
      newReplacer (specDepsOver u dict) flags
        = Replacer.Compile (Replacer.RemoveRule { Replacements := dict, compiled := false }
            (strings.Split (strings.ToLower u.ToLower flags.Ignores) ',')) := by
    intro hne
    have hpos : flags.Ignores.length > 0 := List.length_pos.mpr hne
    simp [newReplacer, specDepsOver, hpos]
  constructor
  · intro d hd hdw
    rw [processIdentifiers_logs, List.mem_flatMap] at hd
    obtain ⟨ident, _, hd⟩ := hd
    unfold specDiagnostics at hd
    by_cases ha : specAccepts flags ident.Obj = true
    · rw [if_pos ha, mem_matchedWords] at hd
      obtain ⟨word, hword, hcorr, rfl⟩ := hd
      simp only at hdw
      subst hdw
      by_cases hne : flags.Ignores = []
      · rw [hne] at he
        have he2 : e = [] := by simpa [strings.Split] using he
        rw [he2] at hw
        have hw2 : word = [] := by simpa [strings.ToLower] using hw
        rw [hw2] at hword
        exact split_no_empty_word u _ hword
      · apply hcorr
        rw [hnew hne]
        exact replace_removed u dict _ word hin
    · simp [ha] at hd
  · intro hne
    refine ⟨hnew hne, ?_, ?_⟩
    · rw [hnew hne]
      intro rule hrule hkey
      simp only [Replacer.Compile, Replacer.RemoveRule, Bool.false_eq_true, if_false,
        List.mem_filter] at hrule
      rw [hkey] at hrule
      simp [hin] at hrule
    · rw [hnew hne]
      exact replace_removed u dict _ w hin

theorem ignores_suppress_witness :
    "Begİning".toList ∈ strings.Split ignoreTwoFlags.Ignores ','
    ∧ strings.ToLower exampleTables.ToLower "begining".toList
        = strings.ToLower exampleTables.ToLower "Begİning".toList
    ∧ (∀ d ∈ (processIdentifiers (specDepsOver exampleTables exampleDict) [some twoFuncsFile]
          ignoreTwoFlags).logs, d.word ≠ "begining".toList)
    ∧ (processIdentifiers (specDepsOver exampleTables exampleDict) [some twoFuncsFile]
          ignoreTwoFlags).logs = []
    ∧ (processIdentifiers (specDepsOver exampleTables exampleDict) [some twoFuncsFile]
          defaultFlags).logs
        = [⟨"file.go".toList, 2, "nto".toList, "not".toList, "nto".toList⟩,
           ⟨"file.go".toList, 3, "begining".toList, "beginning".toList, "begining".toList⟩] :=
  ⟨by decide, by decide,
    (ignores_suppress exampleTables exampleTables_comma exampleDict [some twoFuncsFile]
      ignoreTwoFlags "begining".toList "Begİning".toList (by decide) (by decide)).1,
    by decide, by decide⟩

/-- The `%q` verb leaves a word of printable characters without quote and
backslash unchanged, between double quotes. -/
theorem quote_plain (IsPrint : Char → Bool) (w : Str)
    (h : ∀ c ∈ w, IsPrint c = true ∧ c ≠ '"' ∧ c ≠ '\\') :
    strconv.Quote IsPrint w = ['"'] ++ w ++ ['"'] := by
  have hflat : (w.map (appendEscapedRune IsPrint)).flatten = w := by
    induction w with
    | nil => rfl
    | cons c cs ih =>
      have hc := h c (List.mem_cons_self c cs)
      have hcs := ih (fun x hx => h x (List.mem_cons_of_mem c hx))
      have he : appendEscapedRune IsPrint c = [c] := by
        unfold appendEscapedRune
        simp [hc.1, hc.2.1, hc.2.2]
      simp [he, hcs]
  unfold strconv.Quote
  rw [hflat]

/-! ## Format of a diagnostic line -/

/-- C6: every entry d logged by processIdentifiers, under every flag setting
(all-kinds branch or filtered branch), is the diagnostic of a collected
identifier and one of its segments that has a correction: its word is the
segment as it stands in the name, its suggestion is the corrector's output for
that segment, its name is the full identifier name, its position the
identifier's; and when the characters of the word are printable and are neither
the double quote nor the backslash (as in any Go identifier), the text written
is exactly `<file>:<line> "<word>" should be <suggestion> in <name>` followed
by one newline. -/
theorem diagnostic_line_format {R : Type} (deps : Deps R) (IsPrint : Char → Bool)
    (files : List (Option File)) (flags : Flags) (d : Diagnostic)
    (hd : d ∈ (processIdentifiers deps files flags).logs) :
    (∃ ident ∈ identifiersOf files, ∃ word ∈ deps.Split ident.Name,
        (deps.Replace (newReplacer deps flags) word).2 ≠ [] ∧
        d = ⟨ident.fileName, ident.line, word, (deps.Replace (newReplacer deps flags) word).1,
              ident.Name⟩)
    ∧ ((∀ c ∈ d.word, IsPrint c = true ∧ c ≠ '"' ∧ c ≠ '\\') →
        d.text IsPrint
          = d.fileName ++ ":".toList ++ itoa d.line ++ " \"".toList ++ d.word
            ++ "\" should be ".toList ++ d.v ++ " in ".toList ++ d.name ++ "\n".toList) := by
  constructor
  · rw [processIdentifiers_logs, List.mem_flatMap] at hd
    obtain ⟨ident, hident, hd⟩ := hd
    unfold specDiagnostics at hd
    by_cases ha : specAccepts flags ident.Obj = true
    · rw [if_pos ha, mem_matchedWords] at hd
      obtain ⟨word, hword, hcorr, rfl⟩ := hd
      exact ⟨ident, hident, word, hword, hcorr, rfl⟩
    · simp [ha] at hd
  · intro hplain
    unfold Diagnostic.text
    rw [quote_plain IsPrint d.word hplain]
    simp [List.append_assoc]

theorem diagnostic_line_format_witness :
    (⟨"file.go".toList, 2, "Propogate".toList, "Propagate".toList, "Propogate".toList⟩ :
        Diagnostic)
      ∈ (processIdentifiers (specDeps exampleDict) [some [Node.ident propogateIdent]]
          defaultFlags).logs
    ∧ (∀ c ∈ "Propogate".toList, asciiIsPrint c = true ∧ c ≠ '"' ∧ c ≠ '\\')
    ∧ Diagnostic.text asciiIsPrint
        ⟨"file.go".toList, 2, "Propogate".toList, "Propagate".toList, "Propogate".toList⟩
      = "file.go:2 \"Propogate\" should be Propagate in Propogate\n".toList :=
  ⟨by decide, by decide,
    (diagnostic_line_format (specDeps exampleDict) asciiIsPrint
      [some [Node.ident propogateIdent]] defaultFlags
      ⟨"file.go".toList, 2, "Propogate".toList, "Propagate".toList, "Propogate".toList⟩
      (by decide)).2 (by decide)⟩

/-! ## Input resolution -/

/-- C7: for every argument list and flags, whatever `parseInput` is: if it
fails with an error, CheckForIdentiferTypos returns a non-nil error that starts
with "could not parse input" (followed by the error) and logs nothing;
if it succeeds with files, the result is exactly that of processIdentifiers on
those files. -/
theorem check_parse_failure {R : Type} (deps : Deps R)
    (parseInput : List Str → Bool → Except Str (List (Option File)))
    (args : List Str) (flags : Flags) :
    (∀ err, parseInput args flags.IncludeTests = Except.error err →
        (CheckForIdentiferTypos deps parseInput args flags).logs = []
        ∧ (CheckForIdentiferTypos deps parseInput args flags).outcome
            = Outcome.returned (some ("could not parse input ".toList ++ err))
        ∧ "could not parse input".toList
            <+: "could not parse input ".toList ++ err)
    ∧ (∀ files, parseInput args flags.IncludeTests = Except.ok files →
        CheckForIdentiferTypos deps parseInput args flags
          = processIdentifiers deps files flags) := by
  constructor
  · intro err herr
    unfold CheckForIdentiferTypos
    rw [herr]
    refine ⟨rfl, rfl, ?_⟩
    exact ⟨" ".toList ++ err, by simp⟩
  · intro files hfiles
    unfold CheckForIdentiferTypos
    rw [hfiles]

theorem check_parse_failure_witness :
    exampleParseInput ["nowhere".toList] defaultFlags.IncludeTests
      = Except.error "invalid file specified".toList
    ∧ exampleParseInput ["file.go".toList] defaultFlags.IncludeTests
      = Except.ok [some [Node.ident propogateIdent]]
    ∧ (CheckForIdentiferTypos (specDeps exampleDict) exampleParseInput ["nowhere".toList]
        defaultFlags).logs = []
    ∧ (CheckForIdentiferTypos (specDeps exampleDict) exampleParseInput ["nowhere".toList]
        defaultFlags).outcome
      = Outcome.returned (some "could not parse input invalid file specified".toList)
    ∧ CheckForIdentiferTypos (specDeps exampleDict) exampleParseInput ["file.go".toList]
        defaultFlags
      = processIdentifiers (specDeps exampleDict) [some [Node.ident propogateIdent]]
          defaultFlags :=
  ⟨rfl, rfl,
    ((check_parse_failure (specDeps exampleDict) exampleParseInput ["nowhere".toList]
      defaultFlags).1 "invalid file specified".toList rfl).1,
    ((check_parse_failure (specDeps exampleDict) exampleParseInput ["nowhere".toList]
      defaultFlags).1 "invalid file specified".toList rfl).2.1,
    (check_parse_failure (specDeps exampleDict) exampleParseInput ["file.go".toList]
      defaultFlags).2 [some [Node.ident propogateIdent]] rfl⟩

/-! ## Case of the suggestion -/

/-- C8 (failing input): on `func Alltime() {}` and on `func alltime() {}`, with
the corrector's rule from alltime to all-time, processIdentifiers writes the
corrector's suggestion as it comes, `All-time` and `all-time`, where the tests
of `Test_processIdentifiers` expect `AllTime` and `allTime`. -/
theorem hyphenated_suggestion_logged :
    (processIdentifiers (specDeps exampleDict) [some [Node.ident alltimeFunc]]
        defaultFlags).logs.map (Diagnostic.text asciiIsPrint)
      = ["file.go:2 \"Alltime\" should be All-time in Alltime\n".toList]
    ∧ (processIdentifiers (specDeps exampleDict) [some [Node.ident alltimeLowerFunc]]
        defaultFlags).logs.map (Diagnostic.text asciiIsPrint)
      = ["file.go:2 \"alltime\" should be all-time in alltime\n".toList] := by
  decide

/-! ## Segmentation -/

theorem upper_not_lower (c : Char) (h : c.isUpper = true) : c.isLower = false := by
  rw [Bool.eq_false_iff]
  intro hl
  rw [char_isUpper_iff] at h
  rw [char_isLower_iff] at hl
  omega

theorem exampleTables_disjoint (c : Char) (h : exampleTables.IsUpper c = true) :
    exampleTables.IsLower c = false := by
  unfold exampleTables at h ⊢
  simp only [Bool.or_eq_true, decide_eq_true_eq] at h
  simp only [Bool.or_eq_false_iff, decide_eq_false_iff_not]
  rcases h with ((h | h) | h) | h
  · refine ⟨⟨upper_not_lower c h, ?_⟩, ?_⟩
    · rintro rfl
      exact absurd h (by decide)
    · rintro rfl
      exact absurd h (by decide)
  · subst h
    decide
  · subst h
    decide
  · subst h
    decide

theorem charClass_lower (u : UnicodeTables) (c : Char) (h : u.IsLower c = true) :
    charClass u c = 1 := by
  simp [charClass, h]

theorem charClass_upper (u : UnicodeTables) (c : Char) (h : u.IsUpper c = true)
    (hnl : u.IsLower c = false) : charClass u c = 2 := by
  simp [charClass, h, hnl]

theorem classRuns_head (u : UnicodeTables) (c : Char) (cs : Str) :
    ∃ run runs, classRuns u (c :: cs) = (c :: run) :: runs := by
  unfold classRuns
  split
  · split
    · exact ⟨_, _, rfl⟩
    · exact ⟨_, _, rfl⟩
  · exact ⟨_, _, rfl⟩

/-- A run of one class followed by nothing or by a character of another class
is the first class run. -/
theorem classRuns_run (u : UnicodeTables) (k : Nat) (r rest : Str) (hr : r ≠ [])
    (hk : ∀ c ∈ r, charClass u c = k)
    (hrest : rest = [] ∨ ∃ d rest2, rest = d :: rest2 ∧ charClass u d ≠ k) :
    classRuns u (r ++ rest) = r :: classRuns u rest := by
  induction r with
  | nil => exact absurd rfl hr
  | cons c r ih =>
    cases r with
    | nil =>
      rcases hrest with rfl | ⟨d, rest2, rfl, hd⟩
      · simp [classRuns]
      · obtain ⟨run, runs, hrun⟩ := classRuns_head u d rest2
        have hc : charClass u c = k := hk c (List.mem_cons_self _ _)
        have hne : ¬ charClass u c = charClass u d := by
          rw [hc]
          exact fun h => hd h.symm
        simp only [List.singleton_append]
        rw [classRuns, hrun]
        simp [hne]
    | cons c2 r2 =>
      have ih2 := ih (by simp) (fun x hx => hk x (List.mem_cons_of_mem _ hx))
      have hc : charClass u c = k := hk c (List.mem_cons_self _ _)
      have hc2 : charClass u c2 = k := hk c2 (by simp)
      have happ : c :: c2 :: r2 ++ rest = c :: (c2 :: r2 ++ rest) := rfl
      rw [happ, classRuns, ih2]
      simp [hc, hc2]

theorem capitalised_parts (u : UnicodeTables) (w : Str) (h : isCapitalisedWord u w = true) :
    ∃ a c r, w = a :: c :: r ∧ u.IsUpper a = true ∧ u.IsLower c = true
      ∧ ∀ x ∈ r, u.IsLower x = true := by
  unfold isCapitalisedWord at h
  split at h
  · rename_i a c r
    simp only [List.all_cons, Bool.and_eq_true, List.all_eq_true] at h
    exact ⟨a, c, r, rfl, h.1, h.2.1, h.2.2⟩
  · exact absurd h (by simp)

theorem classRuns_words (u : UnicodeTables)
    (hdisj : ∀ c, u.IsUpper c = true → u.IsLower c = false) (ws : List Str)
    (hws : ∀ w ∈ ws, isCapitalisedWord u w = true) :
    classRuns u ws.flatten = runsOfWords ws := by
  induction ws with
  | nil => rfl
  | cons w ws ih =>
    have ih2 := ih (fun x hx => hws x (List.mem_cons_of_mem _ hx))
    obtain ⟨a, c, r, rfl, ha, hc, hr⟩ :=
      capitalised_parts u w (hws w (List.mem_cons_self _ _))
    have hrest : ws.flatten = [] ∨ ∃ d rest2, ws.flatten = d :: rest2 ∧ charClass u d ≠ 1 := by
      cases ws with
      | nil => exact Or.inl rfl
      | cons w2 ws2 =>
        obtain ⟨a2, c2, r2, rfl, ha2, _, _⟩ :=
          capitalised_parts u w2 (hws w2 (by simp))
        refine Or.inr ⟨a2, c2 :: r2 ++ ws2.flatten, by simp, ?_⟩
        rw [charClass_upper u a2 ha2 (hdisj a2 ha2)]
        decide
    have hlow : classRuns u ((c :: r) ++ ws.flatten) = (c :: r) :: classRuns u ws.flatten :=
      classRuns_run u 1 (c :: r) ws.flatten (by simp)
        (fun x hx => by
          rcases List.mem_cons.mp hx with rfl | hx
          · exact charClass_lower u _ hc
          · exact charClass_lower u _ (hr x hx))
        hrest
    have hup : classRuns u ([a] ++ ((c :: r) ++ ws.flatten))
        = [a] :: classRuns u ((c :: r) ++ ws.flatten) :=
      classRuns_run u 2 [a] ((c :: r) ++ ws.flatten) (by simp)
        (fun x hx => by
          rcases List.mem_singleton.mp hx with rfl
          exact charClass_upper u _ ha (hdisj _ ha))
        (Or.inr ⟨c, r ++ ws.flatten, rfl, by rw [charClass_lower u c hc]; decide⟩)
    have hflat : (((a :: c :: r) :: ws).flatten) = [a] ++ ((c :: r) ++ ws.flatten) := by
      simp
    rw [hflat, hup, hlow, ih2]
    simp [runsOfWords, List.flatMap_cons]

/-- The acronym rule on the runs of capitalised words: every first letter joins
its lowercase rest, leaving an empty run behind. -/
theorem acronymFix_words (u : UnicodeTables)
    (hdisj : ∀ c, u.IsUpper c = true → u.IsLower c = false) (ws : List Str)
    (hws : ∀ w ∈ ws, isCapitalisedWord u w = true) (cur : Str) :
    (acronymFix u cur (runsOfWords ws)).filter (fun w => !w.isEmpty)
      = [cur].filter (fun w => !w.isEmpty) ++ ws := by
  induction ws generalizing cur with
  | nil => simp [runsOfWords, acronymFix]
  | cons w ws ih =>
    have ih2 := ih (fun x hx => hws x (List.mem_cons_of_mem _ hx))
    obtain ⟨a, c, r, rfl, ha, hc, hr⟩ :=
      capitalised_parts u w (hws w (List.mem_cons_self _ _))
    have hal : u.IsLower a = false := hdisj a ha
    have hruns : runsOfWords ((a :: c :: r) :: ws) = [a] :: (c :: r) :: runsOfWords ws := by
      simp [runsOfWords, List.flatMap_cons]
    have hstep1 : acronymFix u cur ([a] :: (c :: r) :: runsOfWords ws)
        = cur :: acronymFix u [a] ((c :: r) :: runsOfWords ws) := by
      rw [acronymFix]
      split
      · rename_i x l b _ _ hb
        have hba : b = a := by simpa using hb.symm
        subst hba
        simp [hal]
      · rfl
    have hstep2 : acronymFix u [a] ((c :: r) :: runsOfWords ws)
        = [] :: acronymFix u (a :: c :: r) (runsOfWords ws) := by
      rw [acronymFix]
      simp [ha, hc]
    rw [hruns, hstep1, hstep2]
    have hih := ih2 (a :: c :: r)
    simp only [List.filter_cons, List.isEmpty_nil, Bool.not_true, Bool.false_eq_true, if_false,
      List.filter_nil] at hih ⊢
    rw [hih]
    cases cur with
    | nil => simp
    | cons x xs => simp

/-- C9: over the spec-modelled segmenter, for every Unicode tables (in which no
uppercase letter is also a lowercase letter) and every name made of a (possibly
empty) run l of lowercase letters followed by capitalised words ws (each one
uppercase letter followed by one or more lowercase letters): the segmentation
is exactly those runs in left-to-right order with their casing, l first when it
is not empty; their concatenation is the name; a name that is only lowercase
letters, or only one capitalised word, gives the single-element sequence of the
whole name. -/
theorem split_camel_words (u : UnicodeTables)
    (hdisj : ∀ c, u.IsUpper c = true → u.IsLower c = false)
    (l : Str) (ws : List Str) (hl : ∀ c ∈ l, u.IsLower c = true)
    (hws : ∀ w ∈ ws, isCapitalisedWord u w = true) :
    camelcase.Split u (l ++ ws.flatten) = (if l = [] then [] else [l]) ++ ws
    ∧ (camelcase.Split u (l ++ ws.flatten)).flatten = l ++ ws.flatten
    ∧ (l ≠ [] → camelcase.Split u l = [l])
    ∧ (∀ w ∈ ws, camelcase.Split u w = [w]) := by
  have main : ∀ (l : Str) (ws : List Str), (∀ c ∈ l, u.IsLower c = true) →
      (∀ w ∈ ws, isCapitalisedWord u w = true) →
      camelcase.Split u (l ++ ws.flatten) = (if l = [] then [] else [l]) ++ ws := by
    intro l ws hl hws
    have hrest : ws.flatten = [] ∨ ∃ d rest2, ws.flatten = d :: rest2 ∧ charClass u d ≠ 1 := by
      cases ws with
      | nil => exact Or.inl rfl
      | cons w2 ws2 =>
        obtain ⟨a2, c2, r2, rfl, ha2, _, _⟩ :=
          capitalised_parts u w2 (hws w2 (by simp))
        refine Or.inr ⟨a2, c2 :: r2 ++ ws2.flatten, by simp, ?_⟩
        rw [charClass_upper u a2 ha2 (hdisj a2 ha2)]
        decide
    by_cases hnil : l = []
    · subst hnil
      simp only [List.nil_append, if_true]
      unfold camelcase.Split
      rw [classRuns_words u hdisj ws hws]
      cases ws with
      | nil => rfl
      | cons w ws2 =>
        obtain ⟨a, c, r, rfl, ha, hc, hr⟩ :=
          capitalised_parts u w (hws w (List.mem_cons_self _ _))
        have hruns : runsOfWords ((a :: c :: r) :: ws2)
            = [a] :: (c :: r) :: runsOfWords ws2 := by
          simp [runsOfWords, List.flatMap_cons]
        have hstep2 : acronymFix u [a] ((c :: r) :: runsOfWords ws2)
            = [] :: acronymFix u (a :: c :: r) (runsOfWords ws2) := by
          rw [acronymFix]
          simp [ha, hc]
        have hfix := acronymFix_words u hdisj ws2
          (fun x hx => hws x (List.mem_cons_of_mem _ hx)) (a :: c :: r)
        rw [hruns]
        simp only [hstep2]
        simp only [List.filter_cons, List.isEmpty_nil, Bool.not_true, Bool.false_eq_true,
          if_false, List.filter_nil] at hfix ⊢
        rw [hfix]
        simp
    · simp only [hnil, if_false]
      unfold camelcase.Split
      rw [classRuns_run u 1 l ws.flatten hnil (fun c hc => charClass_lower u c (hl c hc)) hrest,
        classRuns_words u hdisj ws hws]
      simp only
      rw [acronymFix_words u hdisj ws hws l]
      cases l with
      | nil => exact absurd rfl hnil
      | cons c cs => simp
  have hmain := main l ws hl hws
  refine ⟨hmain, ?_, ?_, ?_⟩
  · rw [hmain]
    by_cases hnil : l = []
    · simp [hnil]
    · simp [hnil]
  · intro hne
    have h := main l [] hl (by simp)
    simpa [hne] using h
  · intro w hw
    have h := main [] [w] (by simp) (by
      intro x hx
      rcases List.mem_singleton.mp hx with rfl
      exact hws x hw)
    simpa using h

theorem split_camel_words_witness :
    (∀ c ∈ "foo".toList, exampleTables.IsLower c = true)
    ∧ (∀ w ∈ ["Böse".toList, "Überraschung".toList], isCapitalisedWord exampleTables w = true)
    ∧ camelcase.Split exampleTables "fooBöseÜberraschung".toList
        = ["foo".toList, "Böse".toList, "Überraschung".toList]
    ∧ camelcase.Split exampleTables "BöseÜberraschung".toList
        = ["Böse".toList, "Überraschung".toList]
    ∧ camelcase.Split exampleTables "FooBeginingBar".toList
        = ["Foo".toList, "Begining".toList, "Bar".toList]
    ∧ camelcase.Split exampleTables "authorithyLoop".toList
        = ["authorithy".toList, "Loop".toList]
    ∧ camelcase.Split exampleTables "begining".toList = ["begining".toList] :=
  ⟨by decide, by decide,
    (split_camel_words exampleTables exampleTables_disjoint "foo".toList
      ["Böse".toList, "Überraschung".toList] (by decide) (by decide)).1,
    by decide, by decide, by decide, by decide⟩

/-! ## Exit status and the kind flags -/

theorem matched_nonempty_iff {R : Type} (deps : Deps R) (r : R) (identifiers : List Ident) :
    identifiers.flatMap (matchedWords deps r) ≠ [] ↔
      ∃ ident ∈ identifiers, ∃ word ∈ deps.Split ident.Name, (deps.Replace r word).2 ≠ [] := by
  constructor
  · intro h
    obtain ⟨d, hd⟩ := List.exists_mem_of_ne_nil _ h
    rw [List.mem_flatMap] at hd
    obtain ⟨ident, hident, hd⟩ := hd
    rw [mem_matchedWords] at hd
    obtain ⟨word, hword, hcorr, _⟩ := hd
    exact ⟨ident, hident, word, hword, hcorr⟩
  · rintro ⟨ident, hident, word, hword, hcorr⟩
    apply List.ne_nil_of_mem
    rw [List.mem_flatMap]
    exact ⟨ident, hident, (mem_matchedWords deps r ident _).mpr ⟨word, hword, hcorr, rfl⟩⟩

/-- C10: with SetExitStatus true, for every files and flags: the exit status
is 1 when some segment of some collected identifier (of any kind) has a
correction under the replacer built from Ignores, and 0 when none has; the
outcome is the same whatever FunctionsOnly, ConstantsOnly and VariablesOnly are
set to; and for a constant with a matched word under FunctionsOnly without
ConstantsOnly, the status is 1 although nothing is logged. -/
theorem exit_status_ignores_kind_flags {R : Type} (deps : Deps R) (files : List (Option File))
    (flags : Flags) (hset : flags.SetExitStatus = true) :
    ((∃ ident ∈ identifiersOf files, ∃ word ∈ deps.Split ident.Name,
        (deps.Replace (newReplacer deps flags) word).2 ≠ []) →
      (processIdentifiers deps files flags).outcome = Outcome.exited 1)
    ∧ ((¬ ∃ ident ∈ identifiersOf files, ∃ word ∈ deps.Split ident.Name,
        (deps.Replace (newReplacer deps flags) word).2 ≠ []) →
      (processIdentifiers deps files flags).outcome = Outcome.exited 0)
    ∧ (∀ fo co vo : Bool,
        (processIdentifiers deps files
          { flags with FunctionsOnly := fo, ConstantsOnly := co, VariablesOnly := vo }).outcome
          = (processIdentifiers deps files flags).outcome)
    ∧ (∀ (ident : Ident) (word : Str), ident.Obj = some ObjKind.Con →
        word ∈ deps.Split ident.Name →
        (deps.Replace (newReplacer deps flags) word).2 ≠ [] →
        flags.FunctionsOnly = true → flags.ConstantsOnly = false →
        (processIdentifiers deps [some [Node.ident ident]] flags).outcome = Outcome.exited 1
        ∧ (processIdentifiers deps [some [Node.ident ident]] flags).logs = []) := by
  have hout : ∀ fs : List (Option File), (processIdentifiers deps fs flags).outcome
      = Outcome.exited
          (if (identifiersOf fs).flatMap (matchedWords deps (newReplacer deps flags)) = []
            then 0 else 1) := by
    intro fs
    rw [processIdentifiers_outcome, hset]
    simp
  refine ⟨?_, ?_, ?_, ?_⟩
  · intro h
    rw [hout, if_neg ((matched_nonempty_iff deps _ _).mpr h)]
  · intro h
    have hnil : (identifiersOf files).flatMap (matchedWords deps (newReplacer deps flags)) = [] := by
      by_contra hne
      exact h ((matched_nonempty_iff deps _ _).mp hne)
    rw [hout, if_pos hnil]
  · intro fo co vo
    rw [processIdentifiers_outcome, processIdentifiers_outcome]
    rfl
  · intro ident word hobj hword hcorr hfo hco
    constructor
    · rw [hout, identifiersOf_single,
        if_neg ((matched_nonempty_iff deps _ _).mpr
          ⟨ident, List.mem_singleton.mpr rfl, word, hword, hcorr⟩)]
    · rw [logs_single]
      unfold specDiagnostics
      have hna : specAccepts flags ident.Obj = false := by
        rw [hobj]
        simp [specAccepts, hfo, hco]
      simp [hna]

theorem exit_status_ignores_kind_flags_witness :
    functionsExitFlags.SetExitStatus = true
    ∧ "begining".toList ∈ (specDeps exampleDict).Split beginingConst.Name
    ∧ ((specDeps exampleDict).Replace (newReplacer (specDeps exampleDict) functionsExitFlags)
        "begining".toList).2 ≠ []
    ∧ (processIdentifiers (specDeps exampleDict) [some [Node.ident beginingConst]]
        functionsExitFlags).outcome = Outcome.exited 1
    ∧ (processIdentifiers (specDeps exampleDict) [some [Node.ident beginingConst]]
        functionsExitFlags).logs = [] :=
  ⟨rfl, by decide, by decide,
    (exit_status_ignores_kind_flags (specDeps exampleDict) [some [Node.ident beginingConst]]
      functionsExitFlags rfl).2.2.2 beginingConst "begining".toList rfl (by decide) (by decide)
      rfl rfl⟩

/-! ## The embedding on a case of the test suite -/

/-- The test "misspelled function/variable/constant (with
functions/variables/constants=true)" of `Test_processIdentifiers`: the three
expected lines are what the embedding writes, in that order. -/
theorem test_all_only_flags :
    (processIdentifiers (specDeps exampleDict) [none, some allKindsFile] allOnlyFlags).logs.map
        (Diagnostic.text asciiIsPrint)
      = [ "file.go:2 \"begining\" should be beginning in begining\n".toList,
          "file.go:3 \"propogate\" should be propagate in propogate\n".toList,
          "file.go:4 \"Propogate\" should be Propagate in PropogateFunc\n".toList ] := by
  decide

/-! ## Monotonicity in the kind flags -/

theorem flatMap_sublist {α β : Type} (f g : α → List β) (xs : List α)
    (h : ∀ x ∈ xs, (f x).Sublist (g x)) : (xs.flatMap f).Sublist (xs.flatMap g) := by
  induction xs with
  | nil => simp
  | cons x xs ih =>
    simp only [List.flatMap_cons]
    exact List.Sublist.append (h x (List.mem_cons_self _ _))
      (ih (fun y hy => h y (List.mem_cons_of_mem _ hy)))

/-- The diagnostics of one identifier only grow when the Kind Filter accepts
more and the replacer is the same. -/
theorem specDiagnostics_sublist {R : Type} (deps : Deps R) (flags flags2 : Flags)
    (ident : Ident) (hig : flags2.Ignores = flags.Ignores)
    (hacc : specAccepts flags ident.Obj = true → specAccepts flags2 ident.Obj = true) :
    (specDiagnostics deps flags ident).Sublist (specDiagnostics deps flags2 ident) := by
  unfold specDiagnostics
  rw [newReplacer_congr deps flags flags2 hig]
  by_cases ha : specAccepts flags ident.Obj = true
  · rw [if_pos ha, if_pos (hacc ha)]
  · rw [if_neg ha]
    exact List.nil_sublist _

/-- C11: for every files, Ignores value and setting of FunctionsOnly,
ConstantsOnly and VariablesOnly, the log of processIdentifiers is an
order-preserving subsequence of the log for the same input with all three flags
false; and when at least one flag is already true, a setting flags2 with the
same Ignores that keeps every flag that is on (and may turn further ones on)
logs a supersequence: no diagnostic is removed. -/
theorem log_monotone_in_flags {R : Type} (deps : Deps R) (files : List (Option File))
    (flags flags2 : Flags) :
    ((processIdentifiers deps files flags).logs.Sublist
        (processIdentifiers deps files
          { flags with FunctionsOnly := false, ConstantsOnly := false,
                       VariablesOnly := false }).logs)
    ∧ ((flags.FunctionsOnly = true ∨ flags.ConstantsOnly = true ∨ flags.VariablesOnly = true) →
        flags2.Ignores = flags.Ignores →
        (flags.FunctionsOnly = true → flags2.FunctionsOnly = true) →
        (flags.ConstantsOnly = true → flags2.ConstantsOnly = true) →
        (flags.VariablesOnly = true → flags2.VariablesOnly = true) →
        (processIdentifiers deps files flags).logs.Sublist
          (processIdentifiers deps files flags2).logs) := by
  constructor
  · rw [processIdentifiers_logs, processIdentifiers_logs]
    apply flatMap_sublist
    intro ident _
    refine specDiagnostics_sublist deps flags
      { flags with FunctionsOnly := false, ConstantsOnly := false, VariablesOnly := false }
      ident rfl ?_
    intro _
    simp [specAccepts]
  · intro hsome hig hf hc hv
    rw [processIdentifiers_logs, processIdentifiers_logs]
    apply flatMap_sublist
    intro ident _
    apply specDiagnostics_sublist deps flags flags2 ident hig
    rcases flags with ⟨ig, it, fo, co, vo, se⟩
    rcases flags2 with ⟨ig2, it2, fo2, co2, vo2, se2⟩
    simp only at hsome hf hc hv
    cases hobj : ident.Obj with
    | none =>
      cases fo <;> cases co <;> cases vo <;> simp_all [specAccepts]
    | some k =>
      cases k <;> cases fo <;> cases co <;> cases vo <;> simp_all [specAccepts]

theorem log_monotone_in_flags_witness :
    (functionsOnlyFlags.FunctionsOnly = true ∨ functionsOnlyFlags.ConstantsOnly = true
      ∨ functionsOnlyFlags.VariablesOnly = true)
    ∧ allOnlyFlags.Ignores = functionsOnlyFlags.Ignores
    ∧ (processIdentifiers (specDeps exampleDict) [none, some allKindsFile]
        functionsOnlyFlags).logs
      = [⟨"file.go".toList, 4, "Propogate".toList, "Propagate".toList, "PropogateFunc".toList⟩]
    ∧ (processIdentifiers (specDeps exampleDict) [none, some allKindsFile]
        functionsOnlyFlags).logs.Sublist
        (processIdentifiers (specDeps exampleDict) [none, some allKindsFile] allOnlyFlags).logs :=
  ⟨Or.inl rfl, rfl, by decide,
    (log_monotone_in_flags (specDeps exampleDict) [none, some allKindsFile] functionsOnlyFlags
      allOnlyFlags).2 (Or.inl rfl) rfl (fun _ => rfl) (fun _ => rfl) (fun _ => rfl)⟩

end Identypo
